import Mathlib

/-!
Verification development for `pymor/algorithms/ei.py`: a shallow embedding of
the empirical-interpolation algorithms (`ei_greedy`, `deim`) and the
`EvaluationProvider` helper, over exact rational arithmetic.

Modelling conventions:
* A vector (`Vec`) is a `List ℚ`; a `VectorArray` is a `List Vec`; the iterable
  of evaluations is a `List (List Vec)` (a list of batches).
* The default error norm (`l2_norm` in the source) is modelled by the *squared*
  Euclidean norm `l2normSq`.  The square root is strictly monotone on the
  nonnegative rationals, so every comparison the algorithm performs
  (argmax selection, `local_max_err > max_err`, `max_err <= target_error`)
  is unchanged by this reparametrisation, and two reported errors are equal
  iff their squared counterparts are equal.
* Python exceptions are modelled by the `PyErr` type; a function that can raise
  returns `Except PyErr _`.
* Rational division is Lean field division, with `1 / 0 = 0`.  The floating
  point source produces `inf`/`nan` when it divides by zero
  (`new_vec *= 1 / new_vec.components([new_dof])[0, 0]` with a zero component);
  in both arithmetics the resulting diagonal entry differs from `1`.
-/

namespace Pymor

abbrev Vec := List ℚ

/-- Zero vector of dimension `d`. -/
def zeroVec (d : ℕ) : Vec := List.replicate d 0

/-- Componentwise vector addition (operands of equal length in every use). -/
def vadd (u v : Vec) : Vec := List.zipWith (· + ·) u v

/-- Componentwise vector subtraction (`U - V`, in-place `-=` in the source). -/
def vsub (u v : Vec) : Vec := List.zipWith (· - ·) u v

/-- Scalar multiplication (in-place `*=` in the source). -/
def smulVec (c : ℚ) (v : Vec) : Vec := v.map (fun x => c * x)

/-- Euclidean inner product (`VectorArray.dot` with the default product). -/
def dotQ (u v : Vec) : ℚ := (List.zipWith (· * ·) u v).sum

/-- Squared Euclidean norm; models `l2_norm` (see header note on monotonicity). -/
def l2normSq (v : Vec) : ℚ := dotQ v v

/-- Component extraction `U.components([i])`: entry `i`, `0` out of range
(the source always indexes in range). -/
def comp (v : Vec) (i : ℕ) : ℚ := v.getD i 0

/-- The error norm actually used: the custom per-vector norm when supplied,
else the (squared) Euclidean norm — `ERR.l2_norm() if error_norm is None else
error_norm(ERR)`. -/
def normOf (en : Option (Vec → ℚ)) (v : Vec) : ℚ :=
  match en with
  | none => l2normSq v
  | some f => f v

/-- Auxiliary fold for `np.argmax`: scan the remaining list, keeping the index
of the first occurrence of the maximum. -/
def argmaxQ : List ℚ → Option ℕ
  | [] => none
  | x :: xs =>
    match argmaxQ xs with
    | none => some 0
    | some j => if xs.getD j 0 > x then some (j + 1) else some 0

/-- Index of the largest-magnitude component of a vector, first index on ties:
`amax()[0][0]` of a one-vector array.  `none` on a zero-dimensional vector
(where `np.argmax` raises `ValueError`). -/
def amaxIdx (v : Vec) : Option ℕ := argmaxQ (v.map (fun x => |x|))

/-- Python exceptions relevant to this module.  `dimensionError` and
`configurationError` are never produced by the code; they are present so that
claims mentioning them can be stated. -/
inductive PyErr where
  | stopIteration
  | valueError
  | linAlgError
  | unboundLocal
  | assertionError
  | dimensionError
  | configurationError
  | indexError
  deriving DecidableEq

/-- Linear combination `collateral_basis.lincomb(coefficients)` of basis
vectors of dimension `d` (the zero vector when the basis is empty). -/
def lincomb (d : ℕ) (vs : List Vec) (cs : List ℚ) : Vec :=
  (List.zipWith smulVec cs vs).foldl vadd (zeroVec d)

/-- Interpolation matrix `collateral_basis.components(interpolation_dofs).T`:
entry `(i, j)` is component `dofs[i]` of basis vector `j`. -/
def interpMatrix (basis : List Vec) (dofs : List ℕ) : List (List ℚ) :=
  dofs.map (fun i => basis.map (fun b => comp b i))

/-- Entry `(i, j)` of a row-major rational matrix. -/
def matEntry (M : List (List ℚ)) (i j : ℕ) : ℚ := (M.getD i []).getD j 0

/-- Forward substitution for `solve_triangular(M, rhs, lower=True,
unit_diagonal=True)`: only the strictly lower part of `M` is read and the
diagonal is taken to be `1`, so `c i = rhs i - ∑ j < i, M i j * c j`.
The accumulator holds the coefficients already computed, so
`dotQ row acc` sums exactly over `j < i`. -/
def forwardSubUnit : List (List ℚ) → List ℚ → List ℚ → List ℚ
  | _, [], acc => acc
  | [], _ :: _, acc => acc
  | row :: M, b :: bs, acc => forwardSubUnit M bs (acc ++ [b - dotQ row acc])

/-- Interpolant of a single vector `u` (`interpolate` in the source): solve the
unit-lower-triangular system against the components of `u` at the DOFs and
form the linear combination of the collateral basis. -/
def interpolateVec (d : ℕ) (basis : List Vec) (dofs : List ℕ) (u : Vec) : Vec :=
  lincomb d basis (forwardSubUnit (interpMatrix basis dofs) (dofs.map (comp u)) [])

/-- Split off the first row with a nonzero leading coefficient (partial
pivoting for exact Gaussian elimination); `none` when the whole first column
is zero. -/
def pivotSplit : List (List ℚ × ℚ) → Option ((List ℚ × ℚ) × List (List ℚ × ℚ))
  | [] => none
  | (r, b) :: rest =>
    if r.headD 0 ≠ 0 then some ((r, b), rest)
    else
      match pivotSplit rest with
      | none => none
      | some (p, others) => some (p, (r, b) :: others)

/-- Eliminate the leading column of row `r` using pivot row `p`. -/
def elimRow (p : List ℚ × ℚ) (r : List ℚ × ℚ) : List ℚ × ℚ :=
  (List.zipWith (fun x y => x - r.1.headD 0 / p.1.headD 0 * y) r.1.tail p.1.tail,
   r.2 - r.1.headD 0 / p.1.headD 0 * p.2)

/-- Gaussian elimination with back substitution on `n` augmented rows. -/
def gaussGo : ℕ → List (List ℚ × ℚ) → Option (List ℚ)
  | 0, _ => some []
  | n + 1, rows =>
    match pivotSplit rows with
    | none => none
    | some ((pr, pb), rest) =>
      match gaussGo n (rest.map (elimRow (pr, pb))) with
      | none => none
      | some xs => some ((pb - dotQ pr.tail xs) / pr.headD 0 :: xs)

/-- Exact solver for a square rational system, modelling `np.linalg.solve` and
the `cho_factor`/`cho_solve` pair: returns the unique solution for a
nonsingular matrix and `none` for a singular one (where LAPACK raises
`LinAlgError`).  For the Gramians the source feeds to `cho_factor` with the
default product this matches Cholesky exactly: a Gramian is positive
semidefinite, so its Cholesky factorisation succeeds iff it is nonsingular. -/
def gaussSolve (A : List (List ℚ)) (b : List ℚ) : Option (List ℚ) :=
  gaussGo A.length (A.zip b)

/-- Configuration of one `ei_greedy` call: common dimension of the evaluation
vectors (the `dim` of the |VectorArray|s), the batches, and the keyword
arguments in source order. -/
structure EiConfig where
  d : ℕ
  evaluations : List (List Vec)
  errorNorm : Option (Vec → ℚ)
  target : Option ℚ
  maxDofs : Option ℤ
  projection : String
  product : Option (Vec → Vec → ℚ)

/-- Mutable state of the greedy loop: `interpolation_dofs`, `collateral_basis`,
`max_errs` and `triangularity_errs`.  The interpolation matrix is recomputed
from the basis and the DOFs after every append, so it is kept derived
(`interpMatrix st.basis st.dofs`). -/
structure EiState where
  dofs : List ℕ
  basis : List Vec
  maxErrs : List ℚ
  triErrs : List ℚ
  deriving DecidableEq

/-- Gram matrix of the collateral basis: `collateral_basis.gramian()` for the
default product, `product.apply2(collateral_basis, collateral_basis,
pairwise=False)` otherwise. -/
def gramOf (product : Option (Vec → Vec → ℚ)) (basis : List Vec) : List (List ℚ) :=
  match product with
  | none => basis.map (fun b => basis.map (fun c => dotQ b c))
  | some p => basis.map (fun b => basis.map (fun c => p b c))

/-- Right-hand side of the projection system for one candidate `u`:
`collateral_basis.dot(AU, pairwise=False)` (column `u`), or
`product.apply2(collateral_basis, AU, pairwise=False)`. -/
def orthRhs (product : Option (Vec → Vec → ℚ)) (basis : List Vec) (u : Vec) : List ℚ :=
  basis.map (fun b =>
    match product with
    | none => dotQ b u
    | some p => p b u)

/-- Projection coefficients of `u`: `cho_solve(gramian_cholesky, ...)` for one
column (`.getD []` is never exercised after the eager factorisation check). -/
def orthCoeffs (product : Option (Vec → Vec → ℚ)) (basis : List Vec) (u : Vec) : List ℚ :=
  (gaussSolve (gramOf product basis) (orthRhs product basis u)).getD []

/-- Residual `AU - AU_interpolated` of one candidate in `ei` projection mode. -/
def eiResidualVec (d : ℕ) (basis : List Vec) (dofs : List ℕ) (u : Vec) : Vec :=
  vsub u (interpolateVec d basis dofs u)

/-- Residual `AU - AU_projected` of one candidate in `orthogonal` projection
mode. -/
def orthResidualVec (d : ℕ) (product : Option (Vec → Vec → ℚ)) (basis : List Vec)
    (u : Vec) : Vec :=
  vsub u (lincomb d basis (orthCoeffs product basis u))

/-- Residual used for the error of each candidate inside `projection_error`:
the candidate itself when no DOF has been selected yet, else the `ei` or the
`orthogonal` residual according to the projection mode. -/
def residOf (cfg : EiConfig) (st : EiState) : Vec → Vec :=
  if st.dofs = [] then id
  else if cfg.projection = "ei" then eiResidualVec cfg.d st.basis st.dofs
  else orthResidualVec cfg.d cfg.product st.basis

/-- Vector proposed for basis extension for each candidate
(`new_vec` in the source): the residual when `len(interpolation_dofs) == 0 or
projection == 'ei'`, else the raw candidate minus its `ei`-style interpolant
(`new_vec = AU.copy(ind); new_vec -= interpolate(AU, ind)`). -/
def candOf (cfg : EiConfig) (st : EiState) : Vec → Vec :=
  if st.dofs = [] ∨ cfg.projection = "ei" then residOf cfg st
  else fun u => vsub u (interpolateVec cfg.d st.basis st.dofs u)

/-- Accumulator of the batch loop in `projection_error`: `max_err` (initially
`-1.`) and `new_vec` (`none` while still unassigned; returning with `none`
models the `UnboundLocalError` Python would raise). -/
structure ErrAcc where
  maxErr : ℚ
  newVec : Option Vec
  deriving DecidableEq

/-- One iteration of `for AU in evaluations` inside `projection_error`:
compute the residuals and errors of the batch, locate the batch argmax
(`ValueError` on an empty batch), and update the running maximum when the
batch maximum strictly exceeds it. -/
def projErrBatch (resid cand : Vec → Vec) (en : Option (Vec → ℚ))
    (AU : List Vec) (acc : ErrAcc) : Except PyErr ErrAcc :=
  match argmaxQ ((AU.map resid).map (normOf en)) with
  | none => .error .valueError
  | some i =>
    if ((AU.map resid).map (normOf en)).getD i 0 > acc.maxErr then
      .ok ⟨((AU.map resid).map (normOf en)).getD i 0, some (cand (AU.getD i []))⟩
    else .ok acc

/-- Error-propagating fold of `projErrBatch` over all batches. -/
def foldBatches (f : List Vec → ErrAcc → Except PyErr ErrAcc) :
    List (List Vec) → ErrAcc → Except PyErr ErrAcc
  | [], acc => .ok acc
  | AU :: rest, acc =>
    match f AU acc with
    | .error e => .error e
    | .ok acc2 => foldBatches f rest acc2

/-- The `projection_error` closure: eagerly Cholesky-factorise the Gramian in
`orthogonal` mode with a nonempty basis (`LinAlgError` when it is singular),
then fold over the batches and return `(max_err, new_vec)`. -/
def projErr (cfg : EiConfig) (st : EiState) : Except PyErr (ℚ × Vec) :=
  if cfg.projection = "orthogonal" ∧ st.dofs ≠ [] ∧
      gaussSolve (gramOf cfg.product st.basis) (List.replicate st.dofs.length 0) = none then
    .error .linAlgError
  else
    match foldBatches (projErrBatch (residOf cfg st) (candOf cfg st) cfg.errorNorm)
        cfg.evaluations ⟨-1, none⟩ with
    | .error e => .error e
    | .ok acc =>
      match acc.newVec with
      | none => .error .unboundLocal
      | some v => .ok (acc.maxErr, v)

/-- Absolute values of the strictly-upper-triangular entries of a row-major
matrix, rows paired with their index. -/
def stripUpperAbs : ℕ → List (List ℚ) → List ℚ
  | _, [] => []
  | i, row :: rest => (row.drop (i + 1)).map (fun x => |x|) ++ stripUpperAbs (i + 1) rest

/-- Triangularity diagnostic `np.max(np.abs(M - tril(M)))`: for a nonempty
square matrix this is the maximum of `0` (the on-and-below-diagonal entries of
the difference) and the absolute strict-upper entries. -/
def triErrOf (M : List (List ℚ)) : ℚ := (stripUpperAbs 0 M).foldl max 0

/-- Acceptance of a candidate: normalise by the selected component
(`new_vec *= 1 / new_vec.components([new_dof])[0, 0]`), append the DOF and the
vector, and record `max_err` and the triangularity deviation of the recomputed
interpolation matrix. -/
def acceptCandidate (st : EiState) (maxErr : ℚ) (v : Vec) (dof : ℕ) : EiState :=
  let v2 := smulVec (1 / comp v dof) v
  let dofs2 := st.dofs ++ [dof]
  let basis2 := st.basis ++ [v2]
  ⟨dofs2, basis2, st.maxErrs ++ [maxErr],
   st.triErrs ++ [triErrOf (interpMatrix basis2 dofs2)]⟩

/-- The `target_error is not None and max_err <= target_error` test. -/
def targetReached : Option ℚ → ℚ → Bool
  | none, _ => false
  | some t, m => m ≤ t

/-- The `len(interpolation_dofs) >= max_interpolation_dofs` test.  The source
is Python 2: with `max_interpolation_dofs=None` the comparison
`int >= None` is `True` (CPython 2 orders `None` below every number), so the
`none` case is `true`. -/
def maxDofsReached : Option ℤ → ℕ → Bool
  | none, _ => true
  | some m, k => m ≤ (k : ℤ)

/-- Outcome of one iteration of the `while True` loop. -/
inductive StepOut where
  | err (e : PyErr)
  | stop (st : EiState)
  | next (st : EiState)
  deriving DecidableEq

/-- One iteration of the main loop of `ei_greedy`: evaluate, test the target
error, locate and test the new DOF, accept, and test the DOF budget (with the
recompute-for-reporting final `projection_error()` call, whose value is only
logged but whose exceptions propagate). -/
def eiStep (cfg : EiConfig) (st : EiState) : StepOut :=
  match projErr cfg st with
  | .error e => .err e
  | .ok (maxErr, newVec) =>
    if targetReached cfg.target maxErr then .stop st
    else
      match amaxIdx newVec with
      | none => .err .valueError
      | some dof =>
        if dof ∈ st.dofs then .stop st
        else
          let st2 := acceptCandidate st maxErr newVec dof
          if maxDofsReached cfg.maxDofs st2.dofs.length then
            match projErr cfg st2 with
            | .error e => .err e
            | .ok _ => .stop st2
          else .next st2

/-- Result of a full `ei_greedy` run: normal return, a raised exception, or
exhaustion of the step budget of the embedding (the loop needed more
iterations than the supplied fuel). -/
inductive EiOut where
  | ok (st : EiState)
  | err (e : PyErr)
  | fuelOut
  deriving DecidableEq

/-- The `while True` loop, with an explicit iteration budget. -/
def eiLoop (cfg : EiConfig) : ℕ → EiState → EiOut
  | 0, _ => .fuelOut
  | fuel + 1, st =>
    match eiStep cfg st with
    | .err e => .err e
    | .stop st2 => .ok st2
    | .next st2 => eiLoop cfg fuel st2

/-- Initial loop state: empty DOFs, empty basis, empty histories. -/
def initState : EiState := ⟨[], [], [], []⟩

/-- The `ei_greedy` entry point: `assert projection in ('orthogonal', 'ei')`
(an `AssertionError` on failure), then
`type(next(iter(evaluations))).empty(...)`, which raises `StopIteration` on an
evaluation iterable with no batches, then the main loop. -/
def eiGreedy (cfg : EiConfig) (fuel : ℕ) : EiOut :=
  if cfg.projection = "orthogonal" ∨ cfg.projection = "ei" then
    if cfg.evaluations = [] then .err .stopIteration
    else eiLoop cfg fuel initState
  else .err .assertionError

/-- Residual of basis vector `bi` in the `deim` loop with a nonempty DOF set:
general (non-unit-triangular) solve `np.linalg.solve(interpolation_matrix,
...)` against the first `len(dofs)` basis vectors, then
`ERR = bi - U_interpolated`. -/
def deimResidual (d : ℕ) (basis : List Vec) (dofs : List ℕ) (bi : Vec) :
    Except PyErr Vec :=
  match gaussSolve (interpMatrix (basis.take dofs.length) dofs) (dofs.map (comp bi)) with
  | none => .error .linAlgError
  | some cs => .ok (vsub bi (lincomb d (basis.take dofs.length) cs))

/-- Residual `ERR` of step `i` of the `deim` loop: basis vector `i` itself
while no DOF has been selected, else the general-solve residual. -/
def deimERR (d : ℕ) (basis : List Vec) (dofs : List ℕ) (bi : Vec) :
    Except PyErr Vec :=
  if dofs = [] then .ok bi else deimResidual d basis dofs bi

/-- The `for i in xrange(len(collateral_basis))` loop of `deim`: compute the
residual and its error, locate the new DOF (`ValueError` on a
zero-dimensional residual), stop on a DOF collision (without recording the
current error), else accept and continue.  `fuel = basis.length - i` at every
call, so the loop is exact. -/
def deimGo (d : ℕ) (basis : List Vec) (en : Option (Vec → ℚ)) :
    ℕ → ℕ → List ℕ → List ℚ → Except PyErr (List ℕ × List ℚ)
  | 0, _, dofs, errs => .ok (dofs, errs)
  | fuel + 1, i, dofs, errs =>
    if basis.length ≤ i then .ok (dofs, errs)
    else
      match deimERR d basis dofs (basis.getD i []) with
      | .error e => .error e
      | .ok r =>
        match amaxIdx r with
        | none => .error .valueError
        | some dof =>
          if dof ∈ dofs then .ok (dofs, errs)
          else deimGo d basis en fuel (i + 1) (dofs ++ [dof]) (errs ++ [normOf en r])

/-- Return value of `deim`. -/
structure DeimResult where
  dofs : List ℕ
  basis : List Vec
  errs : List ℚ
  deriving DecidableEq

/-- The `deim` entry point after the POD step.  The POD routine
(`pymor.la.pod`) is an external collaborator outside this module, so the
collateral basis it produces is taken as the `basis` argument, quantified over
all possible POD outputs.  After the loop the basis is truncated
(`collateral_basis.remove(...)`) when fewer DOFs than basis vectors were
accepted. -/
def deim (d : ℕ) (basis : List Vec) (en : Option (Vec → ℚ)) : Except PyErr DeimResult :=
  match deimGo d basis en basis.length 0 [] [] with
  | .error e => .error e
  | .ok (dofs, errs) =>
    .ok ⟨dofs, if dofs.length < basis.length then basis.take dofs.length else basis, errs⟩

/-- The `EvaluationProvider` helper: a finite ordered parameter sample and the
per-index evaluation computation.  `data` models the cached
solve-plus-apply pipeline, whose ingredients (`discretization.solve`, the
operator applications, the cache region) are external collaborators; the
claims about the provider only concern its length and its index check. -/
structure EvaluationProvider (P β : Type) where
  sample : List P
  data : ℕ → β

/-- The provider's `__len__`: `len(self.sample)`. -/
def EvaluationProvider.lenEP {P β : Type} (p : EvaluationProvider P β) : ℕ :=
  p.sample.length

/-- The provider's `__getitem__`: `if not 0 <= ind < len(self.sample): raise
IndexError`, else the (cached) data for `ind`.  Python indices are arbitrary
integers, so `ind : ℤ`. -/
def EvaluationProvider.getitem {P β : Type} (p : EvaluationProvider P β)
    (ind : ℤ) : Except PyErr β :=
  if 0 ≤ ind ∧ ind < (p.sample.length : ℤ) then .ok (p.data ind.toNat)
  else .error .indexError

/-! ### Generic list lemmas -/

theorem getD_mem {α : Type _} (l : List α) (i : ℕ) (d : α) (h : i < l.length) :
    l.getD i d ∈ l := by
  induction l generalizing i with
  | nil => simp at h
  | cons a t ih =>
    cases i with
    | zero => simp [List.getD]
    | succ j =>
      simp only [List.getD_cons_succ]
      exact List.mem_cons_of_mem _ (ih j (by simpa using h))

theorem exists_getD_of_mem {α : Type _} (l : List α) (u d : α) (h : u ∈ l) :
    ∃ i, i < l.length ∧ l.getD i d = u := by
  induction l with
  | nil => simp at h
  | cons a t ih =>
    rcases List.mem_cons.1 h with h1 | h2
    · exact ⟨0, by simp, by simp [List.getD, h1.symm]⟩
    · obtain ⟨i, hi, hgi⟩ := ih h2
      exact ⟨i + 1, by simpa using hi, by simpa [List.getD_cons_succ] using hgi⟩

theorem getD_map_eq {α β : Type _} (f : α → β) (l : List α) (i : ℕ) (dα : α) (dβ : β)
    (h : i < l.length) : (l.map f).getD i dβ = f (l.getD i dα) := by
  induction l generalizing i with
  | nil => simp at h
  | cons a t ih =>
    cases i with
    | zero => simp [List.getD]
    | succ j => simpa [List.getD_cons_succ] using ih j (by simpa using h)

theorem getD_of_length_le {α : Type _} (l : List α) (i : ℕ) (d : α) (h : l.length ≤ i) :
    l.getD i d = d := by
  induction l generalizing i with
  | nil => simp [List.getD]
  | cons a t ih =>
    cases i with
    | zero => simp at h
    | succ j => simpa [List.getD_cons_succ] using ih j (by simpa using h)

theorem getD_append_lt {α : Type _} (l l' : List α) (i : ℕ) (d : α) (h : i < l.length) :
    (l ++ l').getD i d = l.getD i d := by
  induction l generalizing i with
  | nil => simp at h
  | cons a t ih =>
    cases i with
    | zero => simp [List.getD]
    | succ j => simpa [List.getD_cons_succ] using ih j (by simpa using h)

theorem getD_append_length {α : Type _} (l : List α) (a d : α) :
    (l ++ [a]).getD l.length d = a := by
  induction l with
  | nil => simp [List.getD]
  | cons b t ih =>
    rw [List.cons_append, List.length_cons, List.getD_cons_succ]
    exact ih

theorem nodup_append_singleton {α : Type _} (l : List α) (a : α) (h : l.Nodup)
    (ha : a ∉ l) : (l ++ [a]).Nodup := by
  simp [List.nodup_append, h, ha]

theorem length_le_of_nodup_lt (l : List ℕ) (d : ℕ) (h : l.Nodup)
    (hlt : ∀ x ∈ l, x < d) : l.length ≤ d := by
  classical
  have hcard : l.length = l.toFinset.card := (List.toFinset_card_of_nodup h).symm
  have hsub : l.toFinset ⊆ Finset.range d := by
    intro x hx
    exact Finset.mem_range.2 (hlt x (List.mem_toFinset.1 hx))
  calc l.length = l.toFinset.card := hcard
    _ ≤ (Finset.range d).card := Finset.card_le_card hsub
    _ = d := Finset.card_range d

/-! ### Properties of the argmax -/

theorem argmaxQ_cons_none {t : List ℚ} (x : ℚ) (h : argmaxQ t = none) :
    argmaxQ (x :: t) = some 0 := by
  show (match argmaxQ t with
    | none => some 0
    | some j => if t.getD j 0 > x then some (j + 1) else some 0) = some 0
  rw [h]

theorem argmaxQ_cons_some {t : List ℚ} (x : ℚ) {j : ℕ} (h : argmaxQ t = some j) :
    argmaxQ (x :: t) = if t.getD j 0 > x then some (j + 1) else some 0 := by
  show (match argmaxQ t with
    | none => some 0
    | some j => if t.getD j 0 > x then some (j + 1) else some 0) =
    if t.getD j 0 > x then some (j + 1) else some 0
  rw [h]

theorem argmaxQ_eq_none_iff (xs : List ℚ) : argmaxQ xs = none ↔ xs = [] := by
  cases xs with
  | nil => simp [argmaxQ]
  | cons x t =>
    cases ht : argmaxQ t with
    | none => simp [argmaxQ_cons_none x ht]
    | some j =>
      rw [argmaxQ_cons_some x ht]
      by_cases hgt : t.getD j 0 > x
      · rw [if_pos hgt]
        simp
      · rw [if_neg hgt]
        simp

theorem argmaxQ_lt_length (xs : List ℚ) (i : ℕ) (h : argmaxQ xs = some i) :
    i < xs.length := by
  induction xs generalizing i with
  | nil => simp [argmaxQ] at h
  | cons x t ih =>
    cases ht : argmaxQ t with
    | none =>
      rw [argmaxQ_cons_none x ht] at h
      injection h with h
      simp [← h]
    | some j =>
      rw [argmaxQ_cons_some x ht] at h
      by_cases hgt : t.getD j 0 > x
      · rw [if_pos hgt] at h
        injection h with h
        have := ih j ht
        simp only [List.length_cons, ← h]
        omega
      · rw [if_neg hgt] at h
        injection h with h
        simp [← h]

theorem argmaxQ_is_max (xs : List ℚ) (i : ℕ) (h : argmaxQ xs = some i) :
    ∀ j, j < xs.length → xs.getD j 0 ≤ xs.getD i 0 := by
  induction xs generalizing i with
  | nil => simp [argmaxQ] at h
  | cons x t ih =>
    cases ht : argmaxQ t with
    | none =>
      rw [argmaxQ_cons_none x ht] at h
      injection h with h
      have htnil : t = [] := (argmaxQ_eq_none_iff t).1 ht
      subst htnil
      intro j hj
      have hj0 : j = 0 := by simpa using hj
      subst hj0
      simp [← h]
    | some j0 =>
      rw [argmaxQ_cons_some x ht] at h
      by_cases hgt : t.getD j0 0 > x
      · rw [if_pos hgt] at h
        injection h with h
        intro j hj
        cases j with
        | zero =>
          simp only [List.getD_cons_zero, ← h, List.getD_cons_succ]
          exact le_of_lt hgt
        | succ j' =>
          simp only [← h, List.getD_cons_succ]
          exact ih j0 ht j' (by simpa using hj)
      · rw [if_neg hgt] at h
        injection h with h
        intro j hj
        cases j with
        | zero => simp [← h]
        | succ j' =>
          simp only [← h, List.getD_cons_zero, List.getD_cons_succ]
          exact le_trans (ih j0 ht j' (by simpa using hj)) (not_lt.1 hgt)

/-! ### The batch fold of `projection_error` -/

/-- Invariant of the batch loop of `projection_error` after processing the
candidate vectors `pre`: the running maximum dominates the error of every
processed vector, and `new_vec`, once assigned, is the candidate extraction of
some processed vector whose error equals the running maximum (while
unassigned, `max_err` still holds its initial value `-1`). -/
def goodAcc (resid cand : Vec → Vec) (en : Option (Vec → ℚ)) (pre : List Vec)
    (acc : ErrAcc) : Prop :=
  (∀ u ∈ pre, normOf en (resid u) ≤ acc.maxErr) ∧
  (match acc.newVec with
   | none => acc.maxErr = -1
   | some v => ∃ u ∈ pre, acc.maxErr = normOf en (resid u) ∧ v = cand u)

theorem errs_getD (resid : Vec → Vec) (en : Option (Vec → ℚ)) (AU : List Vec)
    (j : ℕ) (h : j < AU.length) :
    ((AU.map resid).map (normOf en)).getD j 0 = normOf en (resid (AU.getD j [])) := by
  rw [getD_map_eq (normOf en) (AU.map resid) j (resid (AU.getD j [])) 0
        (by simpa using h),
      getD_map_eq resid AU j [] (resid (AU.getD j [])) h]

theorem projErrBatch_good (resid cand : Vec → Vec) (en : Option (Vec → ℚ))
    (AU : List Vec) (pre : List Vec) (acc acc' : ErrAcc)
    (hg : goodAcc resid cand en pre acc)
    (h : projErrBatch resid cand en AU acc = .ok acc') :
    goodAcc resid cand en (pre ++ AU) acc' := by
  unfold projErrBatch at h
  split at h
  · exact Except.noConfusion h
  · rename_i i hm
    have hilen : i < AU.length := by
      have := argmaxQ_lt_length _ _ hm
      simpa using this
    have hval : ((AU.map resid).map (normOf en)).getD i 0
        = normOf en (resid (AU.getD i [])) := errs_getD resid en AU i hilen
    have hmax : ∀ j, j < AU.length →
        normOf en (resid (AU.getD j [])) ≤ normOf en (resid (AU.getD i [])) := by
      intro j hj
      have := argmaxQ_is_max _ _ hm j (by simpa using hj)
      rwa [hval, errs_getD resid en AU j hj] at this
    split at h
    · rename_i hgt
      injection h with h
      subst h
      constructor
      · intro u hu
        show normOf en (resid u) ≤ ((AU.map resid).map (normOf en)).getD i 0
        rw [hval]
        rcases List.mem_append.1 hu with hu1 | hu2
        · refine le_trans (hg.1 u hu1) (le_of_lt ?_)
          rw [hval] at hgt
          exact hgt
        · obtain ⟨j, hj, hju⟩ := exists_getD_of_mem AU u [] hu2
          have := hmax j hj
          rwa [hju] at this
      · show ∃ u ∈ pre ++ AU,
          ((AU.map resid).map (normOf en)).getD i 0 = normOf en (resid u) ∧
          cand (AU.getD i []) = cand u
        exact ⟨AU.getD i [], List.mem_append_right _ (getD_mem AU i [] hilen), hval, rfl⟩
    · rename_i hgt
      injection h with h
      subst h
      constructor
      · intro u hu
        rcases List.mem_append.1 hu with hu1 | hu2
        · exact hg.1 u hu1
        · obtain ⟨j, hj, hju⟩ := exists_getD_of_mem AU u [] hu2
          have h1 := hmax j hj
          rw [hju] at h1
          have h2 : normOf en (resid (AU.getD i [])) ≤ acc.maxErr := by
            rw [← hval]
            exact not_lt.1 hgt
          exact le_trans h1 h2
      · rcases hnv : acc.newVec with _ | v
        · have hm2 := hg.2
          rw [hnv] at hm2
          simpa [hnv] using hm2
        · have hm2 := hg.2
          rw [hnv] at hm2
          obtain ⟨u, hu, hmu, hvu⟩ := hm2
          have : ∃ u ∈ pre ++ AU, acc.maxErr = normOf en (resid u) ∧ v = cand u :=
            ⟨u, List.mem_append_left _ hu, hmu, hvu⟩
          simpa [hnv] using this

theorem foldBatches_good (resid cand : Vec → Vec) (en : Option (Vec → ℚ)) :
    ∀ (batches : List (List Vec)) (pre : List Vec) (acc acc' : ErrAcc),
    goodAcc resid cand en pre acc →
    foldBatches (projErrBatch resid cand en) batches acc = .ok acc' →
    goodAcc resid cand en (pre ++ batches.flatten) acc' := by
  intro batches
  induction batches with
  | nil =>
    intro pre acc acc' hg h
    unfold foldBatches at h
    injection h with h
    subst h
    simpa using hg
  | cons AU rest ih =>
    intro pre acc acc' hg h
    unfold foldBatches at h
    cases hb : projErrBatch resid cand en AU acc with
    | error e =>
      rw [hb] at h
      exact Except.noConfusion h
    | ok acc2 =>
      rw [hb] at h
      have h1 := projErrBatch_good resid cand en AU pre acc acc2 hg hb
      have h2 := ih (pre ++ AU) acc2 acc' h1 h
      simpa [List.append_assoc] using h2

/-- Core property of `projection_error`: when it returns `(max_err, new_vec)`,
`max_err` is the (norm of the) residual of some evaluated candidate, `new_vec`
is the candidate extraction of that same candidate, and `max_err` dominates the
residual norms of all candidates in all batches. -/
theorem projErr_good (cfg : EiConfig) (st : EiState) (m : ℚ) (v : Vec)
    (h : projErr cfg st = .ok (m, v)) :
    (∃ u ∈ cfg.evaluations.flatten,
        m = normOf cfg.errorNorm (residOf cfg st u) ∧ v = candOf cfg st u) ∧
    ∀ w ∈ cfg.evaluations.flatten, normOf cfg.errorNorm (residOf cfg st w) ≤ m := by
  unfold projErr at h
  split at h
  · exact Except.noConfusion h
  · split at h
    · exact Except.noConfusion h
    · rename_i acc hf
      split at h
      · exact Except.noConfusion h
      · rename_i v0 hnv
        injection h with h
        have hm : m = acc.maxErr := (congrArg Prod.fst h.symm : _)
        have hv : v = v0 := (congrArg Prod.snd h.symm : _)
        subst hm
        subst hv
        have hinit : goodAcc (residOf cfg st) (candOf cfg st) cfg.errorNorm [] ⟨-1, none⟩ := by
          constructor
          · intro u hu
            simp at hu
          · rfl
        have hgood := foldBatches_good (residOf cfg st) (candOf cfg st) cfg.errorNorm
          cfg.evaluations [] ⟨-1, none⟩ acc hinit hf
        have h2 := hgood.2
        rw [hnv] at h2
        obtain ⟨u, hu, hmu, hvu⟩ := h2
        refine ⟨⟨u, by simpa using hu, hmu, hvu⟩, ?_⟩
        intro w hw
        exact hgood.1 w (by simpa using hw)

/-! ### Shared rewriting helpers for concrete evaluations -/

theorem strEiNeOrth : (("ei" : String) = "orthogonal") = False := eq_false (by decide)

theorem strOrthNeEi : (("orthogonal" : String) = "ei") = False := eq_false (by decide)

theorem consEqNilFalse {α : Type _} (a : α) (l : List α) :
    ((a :: l) = ([] : List α)) = False := eq_false (by simp)

theorem someEqNoneFalse {α : Type _} (a : α) :
    ((some a) = (none : Option α)) = False := eq_false (by simp)

/-! ### Claim C2 -/

/-- C2: in `ei_greedy`'s projection-error computation, when the projection
mode is `ei` (or when no DOF has been selected yet), the vector proposed for
basis extension is exactly the residual of the argmax vector whose norm is the
reported maximum error; when the mode is `orthogonal` with a nonempty basis,
the reported maximum error is the norm of the orthogonal-projection residual
of the argmax vector, while the proposed candidate is that raw vector minus
its ei-style (triangular-solve) interpolant, not the orthogonal residual. -/
theorem projErr_candidate_policy (cfg : EiConfig) (st : EiState) (m : ℚ) (v : Vec)
    (h : projErr cfg st = .ok (m, v)) :
    (st.dofs = [] →
      ∃ u ∈ cfg.evaluations.flatten,
        m = normOf cfg.errorNorm u ∧ v = u ∧
        ∀ w ∈ cfg.evaluations.flatten, normOf cfg.errorNorm w ≤ m) ∧
    (st.dofs ≠ [] → cfg.projection = "ei" →
      ∃ u ∈ cfg.evaluations.flatten,
        m = normOf cfg.errorNorm (eiResidualVec cfg.d st.basis st.dofs u) ∧
        v = eiResidualVec cfg.d st.basis st.dofs u ∧
        ∀ w ∈ cfg.evaluations.flatten,
          normOf cfg.errorNorm (eiResidualVec cfg.d st.basis st.dofs w) ≤ m) ∧
    (st.dofs ≠ [] → cfg.projection = "orthogonal" →
      ∃ u ∈ cfg.evaluations.flatten,
        m = normOf cfg.errorNorm (orthResidualVec cfg.d cfg.product st.basis u) ∧
        v = vsub u (interpolateVec cfg.d st.basis st.dofs u) ∧
        ∀ w ∈ cfg.evaluations.flatten,
          normOf cfg.errorNorm (orthResidualVec cfg.d cfg.product st.basis w) ≤ m) := by
  have hg := projErr_good cfg st m v h
  refine ⟨?_, ?_, ?_⟩
  · intro hd
    have hres : residOf cfg st = id := by simp [residOf, hd]
    have hcand : candOf cfg st = residOf cfg st := by simp [candOf, hd]
    obtain ⟨⟨u, hu, hmu, hvu⟩, hmax⟩ := hg
    refine ⟨u, hu, by simpa [hres] using hmu, by simpa [hcand, hres] using hvu, ?_⟩
    intro w hw
    simpa [hres] using hmax w hw
  · intro hd hmode
    have hres : residOf cfg st = eiResidualVec cfg.d st.basis st.dofs := by
      simp [residOf, hd, hmode]
    have hcand : candOf cfg st = residOf cfg st := by simp [candOf, hmode]
    obtain ⟨⟨u, hu, hmu, hvu⟩, hmax⟩ := hg
    refine ⟨u, hu, by simpa [hres] using hmu, by simpa [hcand, hres] using hvu, ?_⟩
    intro w hw
    simpa [hres] using hmax w hw
  · intro hd hmode
    have hne : ¬ cfg.projection = "ei" := by
      rw [hmode]
      decide
    have hres : residOf cfg st = orthResidualVec cfg.d cfg.product st.basis := by
      simp [residOf, hd, hne]
    have hcand : candOf cfg st
        = fun u => vsub u (interpolateVec cfg.d st.basis st.dofs u) := by
      simp [candOf, hd, hne]
    obtain ⟨⟨u, hu, hmu, hvu⟩, hmax⟩ := hg
    refine ⟨u, hu, by simpa [hres] using hmu, by simpa [hcand] using hvu, ?_⟩
    intro w hw
    simpa [hres] using hmax w hw

/-- Witness for C2: a concrete `ei`-mode evaluation with one selected DOF.
With basis `[[0, 1]]`, DOF `1` and the single candidate `[3, 4]`, the
evaluator reports (squared) error `9` and proposes exactly the residual
`[3, 0]` of that candidate. -/
theorem projErr_candidate_policy_witness :
    ∃ u ∈ [[[(3 : ℚ), 4]]].flatten,
      (9 : ℚ) = normOf none (eiResidualVec 2 [[0, 1]] [1] u) ∧
      [(3 : ℚ), 0] = eiResidualVec 2 [[0, 1]] [1] u ∧
      ∀ w ∈ [[[(3 : ℚ), 4]]].flatten, normOf none (eiResidualVec 2 [[0, 1]] [1] w) ≤ 9 :=
  (projErr_candidate_policy ⟨2, [[[3, 4]]], none, none, some 9, "ei", none⟩
      ⟨[1], [[0, 1]], [1], [0]⟩ 9 [3, 0]
      (by norm_num [projErr, foldBatches, projErrBatch, residOf, candOf,
        eiResidualVec, orthResidualVec, interpolateVec, forwardSubUnit, interpMatrix,
        lincomb, zeroVec, vadd, vsub, smulVec, dotQ, l2normSq, comp, normOf, argmaxQ,
        List.replicate, strEiNeOrth, consEqNilFalse])).2.1
    (by simp) rfl

/-! ### Claim C1 -/

theorem matEntry_interp (basis : List Vec) (dofs : List ℕ) (i j : ℕ)
    (hi : i < dofs.length) (hj : j < basis.length) :
    matEntry (interpMatrix basis dofs) i j = comp (basis.getD j []) (dofs.getD i 0) := by
  unfold matEntry interpMatrix
  rw [getD_map_eq (fun x => basis.map (fun b => comp b x)) dofs i 0 [] hi]
  exact getD_map_eq (fun b => comp b (dofs.getD i 0)) basis j [] 0 hj

theorem comp_smulVec (c : ℚ) (v : Vec) (i : ℕ) :
    comp (smulVec c v) i = c * comp v i := by
  unfold comp smulVec
  by_cases h : i < v.length
  · exact getD_map_eq (fun x => c * x) v i 0 0 h
  · rw [getD_of_length_le _ _ _ (by simpa using not_lt.1 h),
      getD_of_length_le _ _ _ (not_lt.1 h), mul_zero]

/-- Unit-diagonal property of the interpolation matrix: entry `(i, i)` —
component `DOFs[i]` of basis vector `i` — equals `1` for every accepted
index. -/
def diagOnes (basis : List Vec) (dofs : List ℕ) : Prop :=
  ∀ i, i < dofs.length → matEntry (interpMatrix basis dofs) i i = 1

/-- The state invariant of claim C1: as many DOFs as collateral basis vectors,
pairwise-distinct DOFs (nonnegative by the `ℕ` indexing), and a unit diagonal
of the interpolation matrix. -/
def EiInv (st : EiState) : Prop :=
  st.dofs.length = st.basis.length ∧ st.dofs.Nodup ∧ diagOnes st.basis st.dofs

/-- C1 (amended): one completed (accepting) iteration of the `ei_greedy` loop
preserves the state invariant — equal counts of DOFs and basis vectors,
pairwise-distinct nonnegative DOFs, unit diagonal of the interpolation
matrix — provided the accepted candidate's selected component is nonzero
(the component the source divides by; with a zero component, which occurs when
a zero residual is accepted, the normalisation cannot produce a unit
diagonal). -/
theorem ei_accept_preserves_inv (cfg : EiConfig) (st : EiState) (m : ℚ) (v : Vec)
    (dof : ℕ)
    (hInv : EiInv st)
    (hp : projErr cfg st = .ok (m, v))
    (ht : targetReached cfg.target m = false)
    (ha : amaxIdx v = some dof)
    (hd : dof ∉ st.dofs)
    (hc : comp v dof ≠ 0) :
    EiInv (acceptCandidate st m v dof) := by
  obtain ⟨hlen, hnd, hdiag⟩ := hInv
  have hdofs2 : (acceptCandidate st m v dof).dofs = st.dofs ++ [dof] := rfl
  have hbasis2 : (acceptCandidate st m v dof).basis
      = st.basis ++ [smulVec (1 / comp v dof) v] := rfl
  refine ⟨?_, ?_, ?_⟩
  · rw [hdofs2, hbasis2]
    simp [hlen]
  · rw [hdofs2]
    exact nodup_append_singleton _ _ hnd hd
  · rw [hdofs2, hbasis2]
    intro i hi
    have hlen2 : (st.dofs ++ [dof]).length = st.dofs.length + 1 := by simp
    rw [hlen2] at hi
    have hblen : (st.basis ++ [smulVec (1 / comp v dof) v]).length
        = st.dofs.length + 1 := by simp [hlen]
    rw [matEntry_interp _ _ i i (by simpa using hi) (by rw [hblen]; exact hi)]
    rcases Nat.lt_or_ge i st.dofs.length with hlt | hge
    · rw [getD_append_lt _ _ _ _ (by rw [← hlen]; exact hlt),
        getD_append_lt _ _ _ _ hlt]
      have := hdiag i hlt
      rw [matEntry_interp _ _ i i hlt (by rw [← hlen]; exact hlt)] at this
      exact this
    · have hieq : i = st.dofs.length := le_antisymm (Nat.lt_succ_iff.1 hi) hge
      subst hieq
      rw [getD_append_length, hlen, getD_append_length, comp_smulVec]
      exact one_div_mul_cancel hc

/-- Witness for C1 (amended): accepting the candidate `[3, 4]` (selected
component `4 ≠ 0` at DOF `1`) from the empty state preserves the invariant. -/
theorem ei_accept_preserves_inv_witness :
    EiInv (acceptCandidate ⟨[], [], [], []⟩ 25 [3, 4] 1) :=
  ei_accept_preserves_inv ⟨2, [[[3, 4]]], none, none, some 9, "ei", none⟩
    ⟨[], [], [], []⟩ 25 [3, 4] 1
    ⟨rfl, List.nodup_nil, fun i hi => absurd hi (Nat.not_lt_zero i)⟩
    (by norm_num [projErr, foldBatches, projErrBatch, residOf, candOf, normOf,
      l2normSq, dotQ, argmaxQ, strEiNeOrth])
    rfl
    (by norm_num [amaxIdx, argmaxQ])
    (by simp)
    (by norm_num [comp])

/-- Counterexample to C1 as stated: on the single evaluation vector `[0, 1]`
in `ei` mode (DOF budget `3`, no target error), the first iteration selects
DOF `1`; the second iteration's residual is the zero vector, whose argmax is
the fresh DOF `0`, so the candidate is accepted and normalised by its zero
component.  The completed second iteration leaves interpolation-matrix
diagonal entry `(1, 1) = 0` (the floating-point source produces `nan` via
`1/0 = inf`), so the unit-diagonal invariant fails after a completed
loop-body iteration. -/
theorem ei_diag_counterexample :
    eiGreedy ⟨2, [[[0, 1]]], none, none, some 3, "ei", none⟩ 5 =
      .ok ⟨[1, 0], [[0, 1], [0, 0]], [1, 0], [0, 0]⟩ ∧
    matEntry (interpMatrix [[0, 1], [0, 0]] [1, 0]) 1 1 = 0 ∧
    ¬ diagOnes [[0, 1], [0, 0]] [1, 0] := by
  have hentry : matEntry (interpMatrix [[0, 1], [0, 0]] [1, 0]) 1 1 = 0 := by
    norm_num [matEntry, interpMatrix, comp]
  refine ⟨?_, hentry, ?_⟩
  · norm_num [eiGreedy, eiLoop, eiStep, projErr, foldBatches, projErrBatch, residOf,
      candOf, eiResidualVec, orthResidualVec, interpolateVec, forwardSubUnit,
      interpMatrix, lincomb, zeroVec, vadd, vsub, smulVec, dotQ, l2normSq, comp,
      normOf, argmaxQ, amaxIdx, acceptCandidate, targetReached, maxDofsReached,
      triErrOf, stripUpperAbs, initState, List.replicate, gaussSolve, gaussGo,
      pivotSplit, elimRow, gramOf, orthRhs, orthCoeffs, strEiNeOrth, consEqNilFalse,
      someEqNoneFalse]
  · intro hh
    have h1 := hh 1 (by norm_num)
    rw [hentry] at h1
    exact absurd h1 (by norm_num)

/-! ### Claim C3 -/

/-- C3: when a target error is configured and the evaluator's returned maximum
error is at most the target, the loop stops immediately without appending the
proposed candidate — the returned DOFs, collateral basis and error histories
are exactly the state before this final evaluator invocation. -/
theorem ei_target_stop (cfg : EiConfig) (st : EiState) (t m : ℚ) (v : Vec) (fuel : ℕ)
    (htgt : cfg.target = some t)
    (hp : projErr cfg st = .ok (m, v))
    (hm : m ≤ t)
    (hfuel : 0 < fuel) :
    eiLoop cfg fuel st = .ok st := by
  cases fuel with
  | zero => exact absurd hfuel (by simp)
  | succ f =>
    have hstep : eiStep cfg st = .stop st := by
      unfold eiStep
      rw [hp]
      have htr : targetReached cfg.target m = true := by
        rw [htgt]
        simpa [targetReached] using hm
      simp [htr]
    unfold eiLoop
    rw [hstep]

/-- Witness for C3: with target error `2` and a single evaluation `[1]` of
(squared) norm `1 ≤ 2`, the loop returns the initial state unchanged. -/
theorem ei_target_stop_witness :
    eiLoop ⟨1, [[[1]]], none, some 2, none, "ei", none⟩ 1 initState = .ok initState :=
  ei_target_stop ⟨1, [[[1]]], none, some 2, none, "ei", none⟩ initState 2 1 [1] 1 rfl
    (by norm_num [projErr, foldBatches, projErrBatch, residOf, candOf, normOf,
      l2normSq, dotQ, argmaxQ, strEiNeOrth, initState])
    (by norm_num)
    (by norm_num)

/-! ### Case analysis of one loop iteration -/

/-- Exhaustive description of one `ei_greedy` loop iteration: it raises, stops
with the state unchanged (target reached or DOF collision), or accepts the
proposed candidate at a fresh DOF and then either stops (DOF budget reached,
with the reporting recompute) or continues. -/
theorem eiStep_cases (cfg : EiConfig) (st : EiState) :
    (∃ e, eiStep cfg st = .err e) ∨
    (∃ m v, projErr cfg st = .ok (m, v) ∧ eiStep cfg st = .stop st ∧
      (targetReached cfg.target m = true ∨
        ∃ dof, amaxIdx v = some dof ∧ dof ∈ st.dofs)) ∨
    (∃ m v dof, projErr cfg st = .ok (m, v) ∧ amaxIdx v = some dof ∧
      dof ∉ st.dofs ∧ targetReached cfg.target m = false ∧
      ((eiStep cfg st = .stop (acceptCandidate st m v dof) ∧
        maxDofsReached cfg.maxDofs (st.dofs.length + 1) = true) ∨
       (eiStep cfg st = .next (acceptCandidate st m v dof) ∧
        maxDofsReached cfg.maxDofs (st.dofs.length + 1) = false))) := by
  cases hp : projErr cfg st with
  | error e =>
    left
    refine ⟨e, ?_⟩
    unfold eiStep
    rw [hp]
  | ok mv =>
    obtain ⟨m, v⟩ := mv
    by_cases htr : targetReached cfg.target m = true
    · right; left
      refine ⟨m, v, rfl, ?_, Or.inl htr⟩
      unfold eiStep
      rw [hp]
      simp [htr]
    · have htr2 : targetReached cfg.target m = false := Bool.eq_false_iff.2 htr
      cases ha : amaxIdx v with
      | none =>
        left
        refine ⟨.valueError, ?_⟩
        unfold eiStep
        rw [hp]
        simp [htr2, ha]
      | some dof =>
        by_cases hd : dof ∈ st.dofs
        · right; left
          refine ⟨m, v, rfl, ?_, Or.inr ⟨dof, ha, hd⟩⟩
          unfold eiStep
          rw [hp]
          simp [htr2, ha, hd]
        · have hlen1 : (acceptCandidate st m v dof).dofs.length = st.dofs.length + 1 := by
            simp [acceptCandidate]
          by_cases hmx : maxDofsReached cfg.maxDofs (st.dofs.length + 1) = true
          · cases hp2 : projErr cfg (acceptCandidate st m v dof) with
            | error e =>
              left
              refine ⟨e, ?_⟩
              unfold eiStep
              rw [hp]
              simp [htr2, ha, hd, hlen1, hmx, hp2]
            | ok mv2 =>
              right; right
              refine ⟨m, v, dof, rfl, ha, hd, htr2, Or.inl ⟨?_, hmx⟩⟩
              unfold eiStep
              rw [hp]
              simp [htr2, ha, hd, hlen1, hmx, hp2]
          · have hmx2 : maxDofsReached cfg.maxDofs (st.dofs.length + 1) = false :=
              Bool.eq_false_iff.2 hmx
            right; right
            refine ⟨m, v, dof, rfl, ha, hd, htr2, Or.inr ⟨?_, hmx2⟩⟩
            unfold eiStep
            rw [hp]
            simp [htr2, ha, hd, hlen1, hmx2]

/-! ### Claim C4 -/

theorem maxDofsReached_some_true (mi : ℤ) (k : ℕ) :
    maxDofsReached (some mi) k = true ↔ mi ≤ (k : ℤ) := by
  simp [maxDofsReached]

theorem maxDofsReached_some_false (mi : ℤ) (k : ℕ)
    (h : maxDofsReached (some mi) k = false) : (k : ℤ) < mi := by
  by_contra hc
  rw [(maxDofsReached_some_true mi k).2 (not_lt.1 hc)] at h
  exact Bool.noConfusion h

theorem eiLoop_maxDofs_le (cfg : EiConfig) (mi : ℤ) (hm : cfg.maxDofs = some mi) :
    ∀ (fuel : ℕ) (st st' : EiState), (st.dofs.length : ℤ) < mi →
      eiLoop cfg fuel st = .ok st' → (st'.dofs.length : ℤ) ≤ mi := by
  intro fuel
  induction fuel with
  | zero =>
    intro st st' hlt h
    exact absurd h (by simp [eiLoop])
  | succ f ih =>
    intro st st' hlt h
    rcases eiStep_cases cfg st with ⟨e, hs⟩ | ⟨m, v, hp, hs, hwhy⟩ |
      ⟨m, v, dof, hp, ha, hd, htr, hrest⟩
    · unfold eiLoop at h
      rw [hs] at h
      exact EiOut.noConfusion (show EiOut.err e = .ok st' from h)
    · unfold eiLoop at h
      rw [hs] at h
      have h2 : EiOut.ok st = .ok st' := h
      injection h2 with h2
      rw [← h2]
      exact le_of_lt hlt
    · have hacc : (acceptCandidate st m v dof).dofs.length = st.dofs.length + 1 := by
        simp [acceptCandidate]
      rcases hrest with ⟨hs, hmx⟩ | ⟨hs, hmx⟩
      · unfold eiLoop at h
        rw [hs] at h
        have h2 : EiOut.ok (acceptCandidate st m v dof) = .ok st' := h
        injection h2 with h2
        rw [← h2, hacc]
        push_cast
        omega
      · unfold eiLoop at h
        rw [hs] at h
        refine ih (acceptCandidate st m v dof) st' ?_ h
        rw [hm] at hmx
        have := maxDofsReached_some_false mi (st.dofs.length + 1) hmx
        rw [hacc]
        push_cast
        push_cast at this
        omega

/-- Counterexample to C4 as stated: with `max_interpolation_dofs = 0` the
budget check `len(interpolation_dofs) >= max_interpolation_dofs` only runs
after a DOF has been appended, so the returned `interpolation_dofs` holds one
entry — more than the configured bound of zero. -/
theorem ei_maxdofs_zero_counterexample :
    eiGreedy ⟨1, [[[1]]], none, none, some 0, "ei", none⟩ 3 =
      .ok ⟨[0], [[1]], [1], [0]⟩ ∧
    ¬ (((⟨[0], [[1]], [1], [0]⟩ : EiState).dofs.length : ℤ) ≤ 0) := by
  constructor
  · norm_num [eiGreedy, eiLoop, eiStep, projErr, foldBatches, projErrBatch, residOf,
      candOf, eiResidualVec, orthResidualVec, interpolateVec, forwardSubUnit,
      interpMatrix, lincomb, zeroVec, vadd, vsub, smulVec, dotQ, l2normSq, comp,
      normOf, argmaxQ, amaxIdx, acceptCandidate, targetReached, maxDofsReached,
      triErrOf, stripUpperAbs, initState, List.replicate, strEiNeOrth, consEqNilFalse,
      someEqNoneFalse]
  · norm_num

/-- C4 (amended): for any configured DOF budget `max_interpolation_dofs ≥ 1`
the loop stops as soon as the number of accepted DOFs reaches the budget
(after the reporting-only error recompute), every normally returned state has
at most that many DOFs, and with budget `1` and target error `None` every
normally returned state has exactly one DOF.  The bound fails only for the
degenerate budget `0` (see the counterexample), which forces the
`≥ 1` hypothesis. -/
theorem ei_maxdofs_bound (cfg : EiConfig) (mi : ℤ) (fuel : ℕ)
    (hm : cfg.maxDofs = some mi) (h1 : 1 ≤ mi) :
    (∀ st', eiLoop cfg fuel initState = .ok st' → (st'.dofs.length : ℤ) ≤ mi) ∧
    (mi = 1 → cfg.target = none → ∀ st',
      eiLoop cfg fuel initState = .ok st' → st'.dofs.length = 1) := by
  constructor
  · intro st' h
    refine eiLoop_maxDofs_le cfg mi hm fuel initState st' ?_ h
    simp only [initState, List.length_nil, Nat.cast_zero]
    omega
  · rintro rfl htgt st' h
    cases fuel with
    | zero => exact absurd h (by simp [eiLoop])
    | succ f =>
      rcases eiStep_cases cfg initState with ⟨e, hs⟩ | ⟨m, v, hp, hs, hwhy⟩ |
        ⟨m, v, dof, hp, ha, hd, htr, hrest⟩
      · unfold eiLoop at h
        rw [hs] at h
        exact EiOut.noConfusion (show EiOut.err e = .ok st' from h)
      · rcases hwhy with htr | ⟨dof, _, hdof⟩
        · rw [htgt] at htr
          exact absurd htr (by simp [targetReached])
        · exact absurd hdof (by simp [initState])
      · rcases hrest with ⟨hs, hmx⟩ | ⟨hs, hmx⟩
        · unfold eiLoop at h
          rw [hs] at h
          have h2 : EiOut.ok (acceptCandidate initState m v dof) = .ok st' := h
          injection h2 with h2
          rw [← h2]
          simp [acceptCandidate, initState]
        · rw [hm] at hmx
          have hmt : maxDofsReached (some 1) (initState.dofs.length + 1) = true := by
            simp [maxDofsReached, initState]
          rw [hmt] at hmx
          exact Bool.noConfusion hmx

/-- Witness for C4 (amended): budget `1` over two distinct candidates `[2]`,
`[1]` stops after exactly one accepted DOF. -/
theorem ei_maxdofs_bound_witness :
    eiLoop ⟨1, [[[2], [1]]], none, none, some 1, "ei", none⟩ 3 initState =
      .ok ⟨[0], [[1]], [4], [0]⟩ ∧
    (⟨[0], [[1]], [4], [0]⟩ : EiState).dofs.length = 1 := by
  have hrun : eiLoop ⟨1, [[[2], [1]]], none, none, some 1, "ei", none⟩ 3 initState =
      .ok ⟨[0], [[1]], [4], [0]⟩ := by
    norm_num [eiLoop, eiStep, projErr, foldBatches, projErrBatch, residOf,
      candOf, eiResidualVec, orthResidualVec, interpolateVec, forwardSubUnit,
      interpMatrix, lincomb, zeroVec, vadd, vsub, smulVec, dotQ, l2normSq, comp,
      normOf, argmaxQ, amaxIdx, acceptCandidate, targetReached, maxDofsReached,
      triErrOf, stripUpperAbs, initState, List.replicate, strEiNeOrth, consEqNilFalse,
      someEqNoneFalse]
  exact ⟨hrun,
    (ei_maxdofs_bound ⟨1, [[[2], [1]]], none, none, some 1, "ei", none⟩ 1 3 rfl
      (by norm_num)).2 rfl rfl ⟨[0], [[1]], [4], [0]⟩ hrun⟩

/-! ### Claim C5 -/

theorem deimGo_spec (d : ℕ) (basis : List Vec) (en : Option (Vec → ℚ)) :
    ∀ (fuel i : ℕ) (dofs : List ℕ) (errs : List ℚ) (dofs' : List ℕ) (errs' : List ℚ),
      dofs.length = i → i + fuel = basis.length → dofs.Nodup →
      deimGo d basis en fuel i dofs errs = .ok (dofs', errs') →
      dofs'.length ≤ basis.length ∧ dofs'.Nodup := by
  intro fuel
  induction fuel with
  | zero =>
    intro i dofs errs dofs' errs' hlen hfi hnd h
    unfold deimGo at h
    have h2 : (Except.ok (dofs, errs) : Except PyErr (List ℕ × List ℚ))
        = .ok (dofs', errs') := h
    injection h2 with h2
    have hdofs : dofs = dofs' := congrArg Prod.fst h2
    rw [← hdofs, hlen]
    exact ⟨by omega, hnd⟩
  | succ f ih =>
    intro i dofs errs dofs' errs' hlen hfi hnd h
    unfold deimGo at h
    split at h
    · have h2 : (Except.ok (dofs, errs) : Except PyErr (List ℕ × List ℚ))
          = .ok (dofs', errs') := h
      injection h2 with h2
      have hdofs : dofs = dofs' := congrArg Prod.fst h2
      rw [← hdofs, hlen]
      exact ⟨by omega, hnd⟩
    · split at h
      · exact Except.noConfusion h
      · rename_i r hr
        split at h
        · exact Except.noConfusion h
        · rename_i dof hdof
          split at h
          · have h2 : (Except.ok (dofs, errs) : Except PyErr (List ℕ × List ℚ))
                = .ok (dofs', errs') := h
            injection h2 with h2
            have hdofs : dofs = dofs' := congrArg Prod.fst h2
            rw [← hdofs, hlen]
            exact ⟨by omega, hnd⟩
          · rename_i hdnotin
            exact ih (i + 1) (dofs ++ [dof]) (errs ++ [normOf en r]) dofs' errs'
              (by simp [hlen]) (by omega)
              (nodup_append_singleton _ _ hnd hdnotin) h

/-- C5: when `deim` returns normally, the returned collateral basis is exactly
the prefix of the POD basis matching the accepted DOFs — a DOF collision stops
the loop immediately, discarding the remaining basis vectors, and the final
truncation makes `len(basis) == len(dofs)`; the accepted DOFs are pairwise
distinct. -/
theorem deim_truncation (d : ℕ) (basis : List Vec) (en : Option (Vec → ℚ))
    (r : DeimResult) (h : deim d basis en = .ok r) :
    r.basis = basis.take r.dofs.length ∧ r.basis.length = r.dofs.length ∧
    r.dofs.Nodup := by
  unfold deim at h
  split at h
  · exact Except.noConfusion h
  · rename_i dofs errs hgo
    have hspec := deimGo_spec d basis en basis.length 0 [] [] dofs errs rfl
      (by omega) List.nodup_nil hgo
    have h2 : (Except.ok (⟨dofs,
        if dofs.length < basis.length then basis.take dofs.length else basis, errs⟩ :
        DeimResult) : Except PyErr DeimResult) = .ok r := h
    injection h2 with h2
    subst h2
    by_cases hlt : dofs.length < basis.length
    · rw [if_pos hlt]
      refine ⟨rfl, ?_, hspec.2⟩
      simp [List.length_take]
      omega
    · rw [if_neg hlt]
      have hei : dofs.length = basis.length := le_antisymm hspec.1 (not_lt.1 hlt)
      refine ⟨?_, hei.symm, hspec.2⟩
      rw [hei, List.take_length]

/-- Witness for C5: `deim` on the two-vector identity basis accepts both DOFs,
truncates nothing, and satisfies the prefix and length properties. -/
theorem deim_truncation_witness :
    deim 2 [[1, 0], [0, 1]] none = .ok ⟨[0, 1], [[1, 0], [0, 1]], [1, 1]⟩ ∧
    ([[(1 : ℚ), 0], [0, 1]] = ([[(1 : ℚ), 0], [0, 1]] : List Vec).take 2 ∧
      ([[(1 : ℚ), 0], [0, 1]] : List Vec).length = ([0, 1] : List ℕ).length ∧
      ([0, 1] : List ℕ).Nodup) := by
  have hrun : deim 2 [[1, 0], [0, 1]] none = .ok ⟨[0, 1], [[1, 0], [0, 1]], [1, 1]⟩ := by
    norm_num [deim, deimGo, deimERR, deimResidual, gaussSolve, gaussGo, pivotSplit, elimRow,
      interpMatrix, lincomb, vadd, vsub, smulVec, zeroVec, dotQ, l2normSq, comp,
      normOf, amaxIdx, argmaxQ, List.replicate, consEqNilFalse, someEqNoneFalse]
  exact ⟨hrun, deim_truncation 2 [[1, 0], [0, 1]] none ⟨[0, 1], [[1, 0], [0, 1]], [1, 1]⟩ hrun⟩

/-! ### Claim C6 -/

/-- Counterexample to C6 as stated: an empty evaluation set is not rejected
with a `DimensionError`.  An iterable with no batches crashes during setup
with `StopIteration` (from `next(iter(evaluations))`), and a batch with zero
vectors crashes inside the first evaluator invocation with `ValueError`
(`np.argmax` of an empty sequence) — neither is a `DimensionError`. -/
theorem ei_empty_counterexample :
    eiGreedy ⟨1, [], none, none, none, "orthogonal", none⟩ 3 = .err .stopIteration ∧
    eiGreedy ⟨1, [[]], none, none, none, "orthogonal", none⟩ 3 = .err .valueError ∧
    PyErr.stopIteration ≠ PyErr.dimensionError ∧
    PyErr.valueError ≠ PyErr.dimensionError := by
  refine ⟨?_, ?_, by decide, by decide⟩
  · norm_num [eiGreedy]
  · norm_num [eiGreedy, eiLoop, eiStep, projErr, foldBatches, projErrBatch, residOf,
      candOf, normOf, argmaxQ, initState, consEqNilFalse]

/-- C6 (amended): `ei_greedy` does fail on an empty evaluation set before any
basis extension — but via `StopIteration` (no batches, raised eagerly before
the loop) or `ValueError` (a leading batch of zero vectors, raised inside the
first evaluator invocation) rather than a `DimensionError`; it never loops
indefinitely on such input. -/
theorem ei_empty_rejected (d : ℕ) (en : Option (Vec → ℚ)) (t : Option ℚ)
    (md : Option ℤ) (proj : String) (p : Option (Vec → Vec → ℚ)) (fuel : ℕ)
    (rest : List (List Vec))
    (hproj : proj = "orthogonal" ∨ proj = "ei") :
    eiGreedy ⟨d, [], en, t, md, proj, p⟩ fuel = .err .stopIteration ∧
    (0 < fuel →
      eiGreedy ⟨d, [] :: rest, en, t, md, proj, p⟩ fuel = .err .valueError) := by
  constructor
  · unfold eiGreedy
    split
    · simp
    · rename_i hcon
      exact absurd hproj hcon
  · intro hf
    cases fuel with
    | zero => exact absurd hf (by simp)
    | succ f =>
      have hpe : projErr ⟨d, [] :: rest, en, t, md, proj, p⟩ initState
          = .error .valueError := by
        unfold projErr
        rw [if_neg (fun hc => hc.2.1 rfl)]
        have hb : projErrBatch (residOf ⟨d, [] :: rest, en, t, md, proj, p⟩ initState)
            (candOf ⟨d, [] :: rest, en, t, md, proj, p⟩ initState) en [] ⟨-1, none⟩
            = .error .valueError := rfl
        unfold foldBatches
        rw [hb]
      have hstep : eiStep ⟨d, [] :: rest, en, t, md, proj, p⟩ initState
          = .err .valueError := by
        unfold eiStep
        rw [hpe]
      unfold eiGreedy
      split
      · split
        · rename_i hcon
          exact absurd hcon (by simp)
        · unfold eiLoop
          rw [hstep]
      · rename_i hcon
        exact absurd hproj hcon

/-- Witness for C6 (amended) at the default `ei` projection. -/
theorem ei_empty_rejected_witness :
    eiGreedy ⟨1, [], none, none, none, "ei", none⟩ 2 = .err .stopIteration ∧
    eiGreedy ⟨1, [[]], none, none, none, "ei", none⟩ 2 = .err .valueError :=
  ⟨(ei_empty_rejected 1 none none none "ei" none 2 [] (Or.inr rfl)).1,
   (ei_empty_rejected 1 none none none "ei" none 2 [] (Or.inr rfl)).2 (by norm_num)⟩

/-! ### Claim C7 -/

/-- Counterexample to C7 as stated: supplying a custom inner product together
with projection mode `ei` is not rejected at all — the run completes normally,
and an invalid projection mode raises `AssertionError` (from the plain
`assert`), not a `ConfigurationError`. -/
theorem ei_config_counterexample :
    eiGreedy ⟨1, [[[1]]], none, none, none, "ei", some dotQ⟩ 3 =
      .ok ⟨[0], [[1]], [1], [0]⟩ ∧
    eiGreedy ⟨1, [[[1]]], none, none, none, "invalid", none⟩ 3 = .err .assertionError ∧
    PyErr.assertionError ≠ PyErr.configurationError := by
  refine ⟨?_, ?_, by decide⟩
  · norm_num [eiGreedy, eiLoop, eiStep, projErr, foldBatches, projErrBatch, residOf,
      candOf, eiResidualVec, orthResidualVec, interpolateVec, forwardSubUnit,
      interpMatrix, lincomb, zeroVec, vadd, vsub, smulVec, dotQ, l2normSq, comp,
      normOf, argmaxQ, amaxIdx, acceptCandidate, targetReached, maxDofsReached,
      triErrOf, stripUpperAbs, initState, List.replicate, strEiNeOrth, consEqNilFalse,
      someEqNoneFalse]
  · unfold eiGreedy
    rw [if_neg (by decide)]

theorem projErr_ei_product_irrel (d : ℕ) (evals : List (List Vec))
    (en : Option (Vec → ℚ)) (t : Option ℚ) (md : Option ℤ)
    (p : Option (Vec → Vec → ℚ)) (st : EiState) :
    projErr ⟨d, evals, en, t, md, "ei", p⟩ st
      = projErr ⟨d, evals, en, t, md, "ei", none⟩ st := by
  unfold projErr
  simp [residOf, candOf, strEiNeOrth]

theorem eiStep_ei_product_irrel (d : ℕ) (evals : List (List Vec))
    (en : Option (Vec → ℚ)) (t : Option ℚ) (md : Option ℤ)
    (p : Option (Vec → Vec → ℚ)) (st : EiState) :
    eiStep ⟨d, evals, en, t, md, "ei", p⟩ st
      = eiStep ⟨d, evals, en, t, md, "ei", none⟩ st := by
  unfold eiStep
  simp only [projErr_ei_product_irrel d evals en t md p]

theorem eiLoop_ei_product_irrel (d : ℕ) (evals : List (List Vec))
    (en : Option (Vec → ℚ)) (t : Option ℚ) (md : Option ℤ)
    (p : Option (Vec → Vec → ℚ)) :
    ∀ (fuel : ℕ) (st : EiState),
      eiLoop ⟨d, evals, en, t, md, "ei", p⟩ fuel st
        = eiLoop ⟨d, evals, en, t, md, "ei", none⟩ fuel st := by
  intro fuel
  induction fuel with
  | zero => intro st; rfl
  | succ f ih =>
    intro st
    unfold eiLoop
    rw [eiStep_ei_product_irrel d evals en t md p st]
    cases eiStep ⟨d, evals, en, t, md, "ei", none⟩ st with
    | err e => rfl
    | stop st2 => rfl
    | next st2 => exact ih st2

/-- C7 (amended): an invalid projection mode does fail fast before the greedy
loop, but with a plain `AssertionError` (from `assert projection in
('orthogonal', 'ei')`), not a `ConfigurationError`; and supplying a custom
inner-product operator together with projection `ei` is not rejected at all —
the product is silently ignored and the run is identical to `product=None`. -/
theorem ei_mode_check (d : ℕ) (evals : List (List Vec)) (en : Option (Vec → ℚ))
    (t : Option ℚ) (md : Option ℤ) (proj : String) (p : Option (Vec → Vec → ℚ))
    (fuel : ℕ) (h1 : proj ≠ "orthogonal") (h2 : proj ≠ "ei") :
    eiGreedy ⟨d, evals, en, t, md, proj, p⟩ fuel = .err .assertionError ∧
    eiGreedy ⟨d, evals, en, t, md, "ei", p⟩ fuel
      = eiGreedy ⟨d, evals, en, t, md, "ei", none⟩ fuel := by
  constructor
  · unfold eiGreedy
    split
    · rename_i hcon
      rcases hcon with hcon | hcon
      · exact absurd hcon h1
      · exact absurd hcon h2
    · rfl
  · unfold eiGreedy
    split
    · split
      · rfl
      · exact eiLoop_ei_product_irrel d evals en t md p fuel initState
    · rfl

/-- Witness for C7 (amended): mode `"foo"` raises the assertion, and a custom
product with mode `ei` yields the same output as the default product. -/
theorem ei_mode_check_witness :
    eiGreedy ⟨1, [[[1]]], none, none, none, "foo", some dotQ⟩ 2 = .err .assertionError ∧
    eiGreedy ⟨1, [[[1]]], none, none, none, "ei", some dotQ⟩ 2
      = eiGreedy ⟨1, [[[1]]], none, none, none, "ei", none⟩ 2 :=
  ei_mode_check 1 [[[1]]] none none none "foo" (some dotQ) 2 (by decide) (by decide)

/-! ### Claim C8 -/

/-- C8: the provider's length equals the number of parameters in the sample,
and indexing with any integer outside `[0, len)` raises `IndexError` without
computing anything. -/
theorem evalProvider_len_getitem {P β : Type} (p : EvaluationProvider P β) (i : ℤ)
    (h : i < 0 ∨ (p.sample.length : ℤ) ≤ i) :
    p.lenEP = p.sample.length ∧ p.getitem i = .error .indexError := by
  refine ⟨rfl, ?_⟩
  unfold EvaluationProvider.getitem
  rw [if_neg]
  rintro ⟨h0, hlen⟩
  rcases h with h | h
  · omega
  · omega

/-- Witness for C8: a concrete two-parameter provider rejects index `5`. -/
theorem evalProvider_len_getitem_witness :
    (⟨[10, 20], fun _ => 0⟩ : EvaluationProvider ℕ ℕ).lenEP = 2 ∧
    (⟨[10, 20], fun _ => 0⟩ : EvaluationProvider ℕ ℕ).getitem 5 = .error .indexError :=
  evalProvider_len_getitem (⟨[10, 20], fun _ => 0⟩ : EvaluationProvider ℕ ℕ) 5
    (Or.inr (by norm_num))

/-! ### Claim C9 -/

/-- Standard basis vector of dimension `d` with a `1` at index `i`. -/
def unitVec (d i : ℕ) : Vec := (zeroVec d).set i 1

theorem unitVec_length (d i : ℕ) : (unitVec d i).length = d := by
  simp [unitVec, zeroVec]

theorem dotQ_nil_right (v : Vec) : dotQ v [] = 0 := by
  cases v <;> simp [dotQ]

theorem dotQ_zero_left : ∀ (n : ℕ) (w : Vec), dotQ (List.replicate n 0) w = 0 := by
  intro n
  induction n with
  | zero => intro w; simp [dotQ]
  | succ k ih =>
    intro w
    cases w with
    | nil => simp [dotQ]
    | cons x t =>
      rw [List.replicate_succ]
      simpa [dotQ, List.zipWith_cons_cons] using ih t

theorem unitVec_succ (d i : ℕ) : unitVec (d + 1) (i + 1) = 0 :: unitVec d i := by
  simp [unitVec, zeroVec, List.replicate_succ]

theorem unitVec_zero (d : ℕ) : unitVec (d + 1) 0 = 1 :: List.replicate d 0 := by
  simp [unitVec, zeroVec, List.replicate_succ]

theorem dotQ_unit_left : ∀ (d i : ℕ) (u : Vec), i < d → u.length = d →
    dotQ (unitVec d i) u = comp u i := by
  intro d
  induction d with
  | zero => intro i u hi; omega
  | succ k ih =>
    intro i u hi hu
    cases u with
    | nil => simp at hu
    | cons x t =>
      cases i with
      | zero =>
        rw [unitVec_zero]
        simp [dotQ, List.zipWith_cons_cons, comp, dotQ_zero_left k t]
        have : dotQ (List.replicate k 0) t = 0 := dotQ_zero_left k t
        simp [dotQ] at this
        simp [this]
      | succ j =>
        rw [unitVec_succ]
        have ht : t.length = k := by simpa using hu
        have := ih j t (by omega) ht
        simpa [dotQ, List.zipWith_cons_cons, comp] using this

theorem comp_unitVec_self (d i : ℕ) (hi : i < d) : comp (unitVec d i) i = 1 := by
  have := dotQ_unit_left d i (unitVec d i) hi (unitVec_length d i)
  have hone : dotQ (unitVec d i) (unitVec d i) = comp (unitVec d i) i := this
  induction d generalizing i with
  | zero => omega
  | succ k ih =>
    cases i with
    | zero => rw [unitVec_zero]; simp [comp]
    | succ j =>
      rw [unitVec_succ]
      have := ih j (by omega) ?_ ?_
      · simpa [comp] using this
      · exact dotQ_unit_left k j (unitVec k j) (by omega) (unitVec_length k j)
      · exact dotQ_unit_left k j (unitVec k j) (by omega) (unitVec_length k j)

theorem dotQ_unit_unit (d i : ℕ) (hi : i < d) :
    dotQ (unitVec d i) (unitVec d i) = 1 := by
  rw [dotQ_unit_left d i (unitVec d i) hi (unitVec_length d i)]
  exact comp_unitVec_self d i hi

theorem vadd_zero_left : ∀ (d : ℕ) (x : Vec), x.length = d → vadd (zeroVec d) x = x := by
  intro d
  induction d with
  | zero =>
    intro x hx
    rw [List.length_eq_zero] at hx
    subst hx
    rfl
  | succ k ih =>
    intro x hx
    cases x with
    | nil => simp at hx
    | cons a t =>
      have ht : t.length = k := by simpa using hx
      show vadd (zeroVec (k + 1)) (a :: t) = a :: t
      rw [show zeroVec (k + 1) = 0 :: zeroVec k from by simp [zeroVec, List.replicate_succ]]
      simpa [vadd, List.zipWith_cons_cons] using ih t ht

theorem lincomb_single (d : ℕ) (b : Vec) (c : ℚ) (hb : b.length = d) :
    lincomb d [b] [c] = smulVec c b := by
  unfold lincomb
  show vadd (zeroVec d) (smulVec c b) = smulVec c b
  exact vadd_zero_left d (smulVec c b) (by simpa [smulVec] using hb)

theorem forwardSubUnit_single (g r : ℚ) : forwardSubUnit [[g]] [r] [] = [r] := by
  unfold forwardSubUnit
  rw [dotQ_nil_right]
  norm_num
  rfl

theorem eiResidual_single (d dof : ℕ) (b u : Vec) (hb : b.length = d) :
    eiResidualVec d [b] [dof] u = vsub u (smulVec (comp u dof) b) := by
  unfold eiResidualVec interpolateVec
  have hm : interpMatrix [b] [dof] = [[comp b dof]] := rfl
  rw [hm]
  have hrhs : ([dof].map (comp u)) = [comp u dof] := rfl
  rw [hrhs, forwardSubUnit_single, lincomb_single d b (comp u dof) hb]

theorem gaussSolve_one (r : ℚ) : gaussSolve [[1]] [r] = some [r] := by
  norm_num [gaussSolve, gaussGo, pivotSplit, dotQ]

theorem orthResidual_single_unit (d dof : ℕ) (u : Vec) (hdof : dof < d)
    (hu : u.length = d) :
    orthResidualVec d none [unitVec d dof] u = vsub u (smulVec (comp u dof) (unitVec d dof)) := by
  unfold orthResidualVec orthCoeffs
  have hgram : gramOf none [unitVec d dof] = [[1]] := by
    simp [gramOf, dotQ_unit_unit d dof hdof]
  have hrhs : orthRhs none [unitVec d dof] u = [comp u dof] := by
    simp [orthRhs, dotQ_unit_left d dof u hdof hu]
  rw [hgram, hrhs, gaussSolve_one]
  rw [show (some [comp u dof]).getD ([] : List ℚ) = [comp u dof] from rfl]
  rw [lincomb_single d (unitVec d dof) (comp u dof) (unitVec_length d dof)]

theorem projErrBatch_congr (resid1 cand1 resid2 cand2 : Vec → Vec)
    (en : Option (Vec → ℚ)) (AU : List Vec) (acc : ErrAcc)
    (hr : ∀ u ∈ AU, resid1 u = resid2 u) (hc : ∀ u ∈ AU, cand1 u = cand2 u) :
    projErrBatch resid1 cand1 en AU acc = projErrBatch resid2 cand2 en AU acc := by
  unfold projErrBatch
  have hmap : AU.map resid1 = AU.map resid2 := List.map_congr_left hr
  rw [hmap]
  cases hm : argmaxQ ((AU.map resid2).map (normOf en)) with
  | none => rfl
  | some i =>
    simp only [hm]
    have hi : i < AU.length := by simpa using argmaxQ_lt_length _ _ hm
    rw [hc (AU.getD i []) (getD_mem AU i [] hi)]

theorem foldBatches_congr (resid1 cand1 resid2 cand2 : Vec → Vec)
    (en : Option (Vec → ℚ)) :
    ∀ (batches : List (List Vec)) (acc : ErrAcc),
      (∀ u ∈ batches.flatten, resid1 u = resid2 u) →
      (∀ u ∈ batches.flatten, cand1 u = cand2 u) →
      foldBatches (projErrBatch resid1 cand1 en) batches acc
        = foldBatches (projErrBatch resid2 cand2 en) batches acc := by
  intro batches
  induction batches with
  | nil => intro acc _ _; rfl
  | cons AU rest ih =>
    intro acc hr hc
    unfold foldBatches
    rw [projErrBatch_congr resid1 cand1 resid2 cand2 en AU acc
      (fun u hu => hr u (by simp [hu])) (fun u hu => hc u (by simp [hu]))]
    cases projErrBatch resid2 cand2 en AU acc with
    | error e => rfl
    | ok acc2 =>
      exact ih acc2 (fun u hu => hr u (by simp at hu ⊢; exact Or.inr hu))
        (fun u hu => hc u (by simp at hu ⊢; exact Or.inr hu))

/-- C9 (amended): at basis size one, `ei` and `orthogonal` projection modes
report the same `(max_err, new_vec)` pair when the single accepted basis
vector is the standard unit vector at its DOF (both reconstruction formulas
then use the coefficient `u[dof]`).  For a general accepted basis vector the
two modes may report different maximum errors (see the counterexample). -/
theorem projErr_modes_agree_unit (d dof : ℕ) (evals : List (List Vec))
    (en : Option (Vec → ℚ)) (t : Option ℚ) (md : Option ℤ) (es ts : List ℚ)
    (hdof : dof < d)
    (hvecs : ∀ batch ∈ evals, ∀ u ∈ batch, u.length = d) :
    projErr ⟨d, evals, en, t, md, "ei", none⟩ ⟨[dof], [unitVec d dof], es, ts⟩
      = projErr ⟨d, evals, en, t, md, "orthogonal", none⟩
          ⟨[dof], [unitVec d dof], es, ts⟩ := by
  have hflat : ∀ u ∈ evals.flatten, u.length = d := by
    intro u hu
    obtain ⟨batch, hb, hub⟩ := List.mem_flatten.1 hu
    exact hvecs batch hb u hub
  have hresid : ∀ u ∈ evals.flatten,
      residOf ⟨d, evals, en, t, md, "ei", none⟩ ⟨[dof], [unitVec d dof], es, ts⟩ u
        = residOf ⟨d, evals, en, t, md, "orthogonal", none⟩
            ⟨[dof], [unitVec d dof], es, ts⟩ u := by
    intro u hu
    show eiResidualVec d [unitVec d dof] [dof] u = orthResidualVec d none [unitVec d dof] u
    rw [eiResidual_single d dof (unitVec d dof) u (unitVec_length d dof),
      orthResidual_single_unit d dof u hdof (hflat u hu)]
  have hcand : ∀ u ∈ evals.flatten,
      candOf ⟨d, evals, en, t, md, "ei", none⟩ ⟨[dof], [unitVec d dof], es, ts⟩ u
        = candOf ⟨d, evals, en, t, md, "orthogonal", none⟩
            ⟨[dof], [unitVec d dof], es, ts⟩ u := by
    intro u hu
    show eiResidualVec d [unitVec d dof] [dof] u
      = vsub u (interpolateVec d [unitVec d dof] [dof] u)
    rfl
  unfold projErr
  rw [if_neg (fun hcon => by simpa using hcon.1),
    if_neg (fun hcon => by
      rw [show gramOf (⟨d, evals, en, t, md, "orthogonal", none⟩ : EiConfig).product
            [unitVec d dof] = [[1]] from by simp [gramOf, dotQ_unit_unit d dof hdof]]
          at hcon
      have := hcon.2.2
      rw [show (⟨[dof], [unitVec d dof], es, ts⟩ : EiState).dofs.length = 1 from rfl] at this
      rw [show (List.replicate 1 (0 : ℚ)) = [0] from rfl, gaussSolve_one] at this
      exact Option.noConfusion this)]
  rw [foldBatches_congr _ _ _ _ en evals ⟨-1, none⟩ hresid hcand]

/-- Counterexample to C9 as stated: from the evaluations `[[2,2],[0,1]]` both
modes accept the same first basis vector `[1,1]` at DOF `0` (same first
iteration), but at the resulting one-vector state the `ei` evaluator reports
squared error `1` for the candidate `[0,1]` (coefficient `u[0] = 0`), while
the `orthogonal` evaluator reports squared error `1/2` (coefficient
`⟨b,u⟩/⟨b,b⟩ = 1/2`); the reported errors differ (`1` vs `√(1/2)` in the
unsquared source scale). -/
theorem ei_orth_modes_differ_counterexample :
    eiStep ⟨2, [[[2, 2], [0, 1]]], none, none, some 5, "ei", none⟩ initState =
      .next ⟨[0], [[1, 1]], [8], [0]⟩ ∧
    eiStep ⟨2, [[[2, 2], [0, 1]]], none, none, some 5, "orthogonal", none⟩ initState =
      .next ⟨[0], [[1, 1]], [8], [0]⟩ ∧
    projErr ⟨2, [[[2, 2], [0, 1]]], none, none, some 5, "ei", none⟩
      ⟨[0], [[1, 1]], [8], [0]⟩ = .ok (1, [0, 1]) ∧
    projErr ⟨2, [[[2, 2], [0, 1]]], none, none, some 5, "orthogonal", none⟩
      ⟨[0], [[1, 1]], [8], [0]⟩ = .ok (1 / 2, [0, 1]) ∧
    (1 : ℚ) ≠ 1 / 2 := by
  refine ⟨?_, ?_, ?_, ?_, by norm_num⟩ <;>
    norm_num [eiStep, projErr, foldBatches, projErrBatch, residOf,
      candOf, eiResidualVec, orthResidualVec, interpolateVec, forwardSubUnit,
      interpMatrix, lincomb, zeroVec, vadd, vsub, smulVec, dotQ, l2normSq, comp,
      normOf, argmaxQ, amaxIdx, acceptCandidate, targetReached, maxDofsReached,
      triErrOf, stripUpperAbs, initState, List.replicate, gaussSolve, gaussGo,
      pivotSplit, elimRow, gramOf, orthRhs, orthCoeffs, strEiNeOrth, strOrthNeEi,
      consEqNilFalse, someEqNoneFalse]

/-- Witness for C9 (amended): at dimension `2` with basis vector `unitVec 2 0`
and DOF `0`, both projection modes produce identical evaluator output. -/
theorem projErr_modes_agree_unit_witness :
    projErr ⟨2, [[[0, 1]]], none, none, none, "ei", none⟩
        ⟨[0], [unitVec 2 0], [], []⟩
      = projErr ⟨2, [[[0, 1]]], none, none, none, "orthogonal", none⟩
          ⟨[0], [unitVec 2 0], [], []⟩ :=
  projErr_modes_agree_unit 2 0 [[[0, 1]]] none none none [] [] (by norm_num)
    (by
      intro batch hb u hu
      rw [List.mem_singleton] at hb
      subst hb
      rw [List.mem_singleton] at hu
      subst hu
      rfl)

/-! ### Claim C10 -/

theorem mem_zipWith_smul : ∀ (cs : List ℚ) (vs : List Vec) (x : Vec),
    x ∈ List.zipWith smulVec cs vs → ∃ c v, v ∈ vs ∧ x = smulVec c v := by
  intro cs
  induction cs with
  | nil =>
    intro vs x h
    simp at h
  | cons c ct ih =>
    intro vs x h
    cases vs with
    | nil => simp at h
    | cons v vt =>
      rw [List.zipWith_cons_cons] at h
      rcases List.mem_cons.1 h with h1 | h2
      · exact ⟨c, v, List.mem_cons_self v vt, h1⟩
      · obtain ⟨c', v', hv, hx⟩ := ih vt x h2
        exact ⟨c', v', List.mem_cons_of_mem v hv, hx⟩

theorem foldl_vadd_length (d : ℕ) :
    ∀ (l : List Vec), (∀ x ∈ l, x.length = d) →
      ∀ acc : Vec, acc.length = d → (l.foldl vadd acc).length = d := by
  intro l
  induction l with
  | nil =>
    intro _ acc h
    exact h
  | cons x t ih =>
    intro hl acc h
    show ((t.foldl vadd (vadd acc x)).length = d)
    refine ih (fun y hy => hl y (List.mem_cons_of_mem x hy)) (vadd acc x) ?_
    have hx : x.length = d := hl x (List.mem_cons_self x t)
    simp [vadd, h, hx]

theorem lincomb_length (d : ℕ) (vs : List Vec) (cs : List ℚ)
    (h : ∀ b ∈ vs, b.length = d) : (lincomb d vs cs).length = d := by
  unfold lincomb
  refine foldl_vadd_length d _ ?_ (zeroVec d) (by simp [zeroVec])
  intro x hx
  obtain ⟨c, v, hv, rfl⟩ := mem_zipWith_smul cs vs x hx
  simpa [smulVec] using h v hv

theorem candOf_length (cfg : EiConfig) (st : EiState) (u : Vec)
    (hu : u.length = cfg.d) (hb : ∀ b ∈ st.basis, b.length = cfg.d) :
    (candOf cfg st u).length = cfg.d := by
  have hi : (interpolateVec cfg.d st.basis st.dofs u).length = cfg.d :=
    lincomb_length _ _ _ hb
  have ho : (lincomb cfg.d st.basis (orthCoeffs cfg.product st.basis u)).length = cfg.d :=
    lincomb_length _ _ _ hb
  unfold candOf
  split
  · unfold residOf
    split
    · exact hu
    · split
      · unfold eiResidualVec
        simp [vsub, hu, hi]
      · unfold orthResidualVec
        simp [vsub, hu, ho]
  · simp [vsub, hu, hi]

theorem amaxIdx_lt_length (v : Vec) (dof : ℕ) (h : amaxIdx v = some dof) :
    dof < v.length := by
  unfold amaxIdx at h
  have := argmaxQ_lt_length _ _ h
  simpa using this

theorem eiLoop_no_fuelOut (cfg : EiConfig)
    (hvecs : ∀ batch ∈ cfg.evaluations, ∀ u ∈ batch, u.length = cfg.d) :
    ∀ (fuel : ℕ) (st : EiState), st.dofs.Nodup → (∀ x ∈ st.dofs, x < cfg.d) →
      (∀ b ∈ st.basis, b.length = cfg.d) →
      cfg.d + 1 ≤ fuel + st.dofs.length →
      eiLoop cfg fuel st ≠ .fuelOut ∧
      (∀ st', eiLoop cfg fuel st = .ok st' → st'.dofs.length ≤ cfg.d) := by
  have hflat : ∀ u ∈ cfg.evaluations.flatten, u.length = cfg.d := by
    intro u hu
    obtain ⟨batch, hb, hub⟩ := List.mem_flatten.1 hu
    exact hvecs batch hb u hub
  intro fuel
  induction fuel with
  | zero =>
    intro st hnd hlt hb hfuel
    have := length_le_of_nodup_lt st.dofs cfg.d hnd hlt
    omega
  | succ f ih =>
    intro st hnd hlt hb hfuel
    have hbound := length_le_of_nodup_lt st.dofs cfg.d hnd hlt
    rcases eiStep_cases cfg st with ⟨e, hs⟩ | ⟨m, v, hp, hs, _⟩ |
      ⟨m, v, dof, hp, ha, hd, htr, hrest⟩
    · constructor
      · unfold eiLoop
        rw [hs]
        intro hc
        exact EiOut.noConfusion (show EiOut.err e = .fuelOut from hc)
      · intro st' h
        unfold eiLoop at h
        rw [hs] at h
        exact absurd (show EiOut.err e = .ok st' from h) (by simp)
    · constructor
      · unfold eiLoop
        rw [hs]
        intro hc
        exact EiOut.noConfusion (show EiOut.ok st = .fuelOut from hc)
      · intro st' h
        unfold eiLoop at h
        rw [hs] at h
        have h2 : EiOut.ok st = .ok st' := h
        injection h2 with h2
        rw [← h2]
        exact hbound
    · -- an accepting iteration: the fresh DOF lies below the dimension
      obtain ⟨⟨u, hu, _, hvu⟩, _⟩ := projErr_good cfg st m v hp
      have hvlen : v.length = cfg.d := by
        rw [hvu]
        exact candOf_length cfg st u (hflat u hu) hb
      have hdofd : dof < cfg.d := by
        have := amaxIdx_lt_length v dof ha
        rwa [hvlen] at this
      have hnd2 : (acceptCandidate st m v dof).dofs.Nodup := by
        show (st.dofs ++ [dof]).Nodup
        exact nodup_append_singleton _ _ hnd hd
      have hlt2 : ∀ x ∈ (acceptCandidate st m v dof).dofs, x < cfg.d := by
        show ∀ x ∈ st.dofs ++ [dof], x < cfg.d
        intro x hx
        rcases List.mem_append.1 hx with hx | hx
        · exact hlt x hx
        · rw [List.mem_singleton] at hx
          rw [hx]
          exact hdofd
      have hb2 : ∀ b ∈ (acceptCandidate st m v dof).basis, b.length = cfg.d := by
        show ∀ b ∈ st.basis ++ [smulVec (1 / comp v dof) v], b.length = cfg.d
        intro b hbm
        rcases List.mem_append.1 hbm with hbm | hbm
        · exact hb b hbm
        · rw [List.mem_singleton] at hbm
          rw [hbm]
          simpa [smulVec] using hvlen
      have hbound2 := length_le_of_nodup_lt _ cfg.d hnd2 hlt2
      rcases hrest with ⟨hs, _⟩ | ⟨hs, _⟩
      · constructor
        · unfold eiLoop
          rw [hs]
          intro hc
          exact EiOut.noConfusion
            (show EiOut.ok (acceptCandidate st m v dof) = .fuelOut from hc)
        · intro st' h
          unfold eiLoop at h
          rw [hs] at h
          have h2 : EiOut.ok (acceptCandidate st m v dof) = .ok st' := h
          injection h2 with h2
          rw [← h2]
          exact hbound2
      · have hlen2 : (acceptCandidate st m v dof).dofs.length = st.dofs.length + 1 := by
          simp [acceptCandidate]
        have hih := ih (acceptCandidate st m v dof) hnd2 hlt2 hb2 (by omega)
        constructor
        · unfold eiLoop
          rw [hs]
          exact hih.1
        · intro st' h
          unfold eiLoop at h
          rw [hs] at h
          exact hih.2 st' h

/-- C10: on any evaluation set of vectors of common dimension `d`, `ei_greedy`
terminates even with `target_error` and `max_interpolation_dofs` unset: every
iteration either stops (or raises) or appends a DOF distinct from all
previously selected ones, and since DOFs are indices in `[0, d)`, at most `d`
candidates can be accepted before a DOF collision forces termination — so the
loop never exhausts a budget of `d + 1` iterations, and every normally
returned state carries at most `d` DOFs. -/
theorem ei_greedy_terminates (d : ℕ) (evals : List (List Vec))
    (en : Option (Vec → ℚ)) (t : Option ℚ) (md : Option ℤ) (proj : String)
    (p : Option (Vec → Vec → ℚ)) (fuel : ℕ)
    (hvecs : ∀ batch ∈ evals, ∀ u ∈ batch, u.length = d)
    (hfuel : d + 1 ≤ fuel) :
    eiGreedy ⟨d, evals, en, t, md, proj, p⟩ fuel ≠ .fuelOut ∧
    (∀ st', eiGreedy ⟨d, evals, en, t, md, proj, p⟩ fuel = .ok st' →
      st'.dofs.length ≤ d) := by
  have hloop := eiLoop_no_fuelOut ⟨d, evals, en, t, md, proj, p⟩ hvecs fuel initState
    List.nodup_nil (by simp [initState]) (by simp [initState])
    (by simp [initState]; omega)
  unfold eiGreedy
  split
  · split
    · exact ⟨fun hc => EiOut.noConfusion hc, fun st' h => absurd h (by simp)⟩
    · exact hloop
  · exact ⟨fun hc => EiOut.noConfusion hc, fun st' h => absurd h (by simp)⟩

/-- Witness for C10: a one-dimensional single-candidate run neither exhausts
its budget of `2` iterations nor returns more than one DOF. -/
theorem ei_greedy_terminates_witness :
    eiGreedy ⟨1, [[[1]]], none, none, none, "ei", none⟩ 2 ≠ .fuelOut ∧
    (∀ st', eiGreedy ⟨1, [[[1]]], none, none, none, "ei", none⟩ 2 = .ok st' →
      st'.dofs.length ≤ 1) :=
  ei_greedy_terminates 1 [[[1]]] none none none "ei" none 2
    (by
      intro batch hb u hu
      rw [List.mem_singleton] at hb
      subst hb
      rw [List.mem_singleton] at hu
      subst hu
      rfl)
    (by norm_num)

end Pymor
